import Mathlib

/-!
Shallow embedding of the sw_catcher core (keyphrase detection, chained-action
text reconstruction, text cleaning, clipboard delivery guard, ingestion retry
loop) and proofs about it.

Modelling conventions:
* Rust `&str` / `String` values are modelled as `List Char`; byte offsets are
  UTF-8 byte offsets computed with `Char.utf8Size`.
* Rust byte slicing `&s[a..b]` panics when an offset is out of bounds or not a
  character boundary; slicing is therefore modelled as `Option`-valued
  (`none` = panic), and every function that slices is `Option`-valued, with
  `none` propagated (a panic aborts the computation).
* Unicode tables (`char::to_lowercase`, case folding, the `\w` and whitespace
  classes) are modelled on the character set exercised in this development:
  complete on ASCII, plus U+1E9E LATIN CAPITAL LETTER SHARP S, which lowercases
  and case-folds to U+00DF. Elsewhere the maps are the identity. All theorems
  that quantify over all inputs do not depend on the omitted table entries.
-/

/-- Total UTF-8 byte length of a character list (Rust `str::len`). -/
def byteLen (s : List Char) : Nat :=
  s.foldr (fun c n => c.utf8Size + n) 0

/-- Models Rust `char`/`str` lowercasing (`to_lowercase`) on the characters in
scope: ASCII `A`..`Z` map to `a`..`z`, U+1E9E maps to U+00DF, everything else
is unchanged. Rust's full Unicode table also has one-to-many entries; none of
the characters exercised here use them, so the result is a singleton list. -/
def lowerChar (c : Char) : List Char :=
  if 'A' ≤ c ∧ c ≤ 'Z' then [Char.ofNat (c.toNat + 32)]
  else if c = 'ẞ' then ['ß']
  else [c]

/-- Rust `str::to_lowercase`: concatenation of per-character lowercasings. -/
def lowerStr (s : List Char) : List Char :=
  (s.map lowerChar).flatten

/-- Rust `char::is_whitespace` (Unicode White_Space), restricted to the ASCII
whitespace exercised here. -/
def isWs (c : Char) : Bool :=
  c.isWhitespace

/-- Models `&s[n..]`: drop the first `n` bytes. `none` models the Rust panic
when `n` is out of bounds or not a character boundary. -/
def bytesDrop (l : List Char) (n : Nat) : Option (List Char) :=
  if n = 0 then some l
  else
    match l with
    | [] => none
    | c :: cs => if c.utf8Size ≤ n then bytesDrop cs (n - c.utf8Size) else none

/-- Models `&s[..n]`: take the first `n` bytes. `none` models the Rust panic
when `n` is out of bounds or not a character boundary. -/
def bytesTake (l : List Char) (n : Nat) : Option (List Char) :=
  if n = 0 then some []
  else
    match l with
    | [] => none
    | c :: cs =>
      if c.utf8Size ≤ n then (bytesTake cs (n - c.utf8Size)).map (c :: ·)
      else none

/-- Models `&s[a..b]` (`none` = Rust slice panic). -/
def bytesSlice (s : List Char) (a b : Nat) : Option (List Char) :=
  if a ≤ b then (bytesDrop s a).bind (fun t => bytesTake t (b - a)) else none

/-- `n` is a valid byte offset of `s` at a character boundary. -/
def isBoundary (s : List Char) (n : Nat) : Prop :=
  (bytesDrop s n).isSome

/-- `startsWithChars hay needle`: `needle` is a prefix of `hay`. -/
def startsWithChars : List Char → List Char → Bool
  | _, [] => true
  | [], _ :: _ => false
  | c :: cs, d :: ds => c = d && startsWithChars cs ds

/-- Rust `str::find(&str)`: byte offset of the first occurrence of `needle`
in `hay` (`Some(0)` for the empty needle). -/
def findSub : List Char → List Char → Option Nat
  | hay, needle =>
    match hay with
    | [] => if needle = [] then some 0 else none
    | c :: cs =>
      if startsWithChars (c :: cs) needle then some 0
      else (findSub cs needle).map (c.utf8Size + ·)

/-- `src/actions.rs`: action type for keyphrases. -/
inductive ActionType where
  | OpenApplication (app : List Char)
  | OpenUrl (url : List Char)
  | None
deriving DecidableEq, Repr

/-- Scheme-character validation of `parse_action`: ASCII alphanumeric, `+`,
`-` or `.`. -/
def isSchemeChar (c : Char) : Bool :=
  c.isAlphanum || c = '+' || c = '-' || c = '.'

/-- The prefix of the string before the first `:`
(`&action_str[..scheme_end]`). -/
def schemeOf (s : List Char) : List Char :=
  s.takeWhile (fun c => c ≠ ':')

/-- `src/actions.rs` `parse_action`: empty string is `None`; a string that
contains `:` and whose prefix before the first `:` consists only of ASCII
alphanumerics, `+`, `-`, `.` is `OpenUrl`; everything else is
`OpenApplication`. The source lowercases before comparing with `""`, which is
kept (lowercasing is empty exactly on the empty string). -/
def parse_action (action_str : List Char) : ActionType :=
  if lowerStr action_str = [] then ActionType.None
  else if action_str.contains ':' then
    if (schemeOf action_str).all isSchemeChar then ActionType.OpenUrl action_str
    else ActionType.OpenApplication action_str
  else ActionType.OpenApplication action_str

/-- `src/keyphrase.rs`: matching strategy. -/
inductive KeyphraseMatchingStrategy where
  | Simple
  | WholeWord
  | Exact
deriving DecidableEq, Repr

/-- `src/keyphrase.rs`: punctuation handling policy (parsed, and carried in the
options, but not consulted by the reconstruction code). -/
inductive PunctuationHandling where
  | IgnorePunctuation
  | RemoveSentenceEnding
  | RemoveAllPunctuation
deriving DecidableEq, Repr

/-- `src/keyphrase.rs` `KeyphraseProcessingOptions`. -/
structure KeyphraseProcessingOptions where
  matching_strategy : KeyphraseMatchingStrategy
  punctuation_handling : PunctuationHandling
deriving DecidableEq, Repr

/-- `impl Default for KeyphraseProcessingOptions`. -/
def default_options : KeyphraseProcessingOptions :=
  ⟨KeyphraseMatchingStrategy.Simple, PunctuationHandling.RemoveSentenceEnding⟩

/-- `src/keyphrase.rs` `KeyphraseAction`. -/
structure KeyphraseAction where
  keyphrase : List Char
  action : ActionType
deriving DecidableEq, Repr

/-- `src/keyphrase.rs` `KeyphraseMatch` (byte-offset span). -/
structure KeyphraseMatch where
  keyphrase : List Char
  action : ActionType
  start_pos : Nat
  end_pos : Nat
deriving DecidableEq, Repr

/-- Models regex simple case folding (`(?i)`) on the characters in scope:
ASCII folds to lowercase, U+1E9E folds to U+00DF, identity elsewhere. -/
def foldChar (c : Char) : Char :=
  if 'A' ≤ c ∧ c ≤ 'Z' then Char.ofNat (c.toNat + 32)
  else if c = 'ẞ' then 'ß'
  else c

/-- Models the regex `\w` class (Unicode word character) on the characters in
scope: ASCII alphanumerics, `_`, and the non-ASCII letters used here. -/
def isWordChar (c : Char) : Bool :=
  c.isAlphanum || c = '_' || c = 'ß' || c = 'ẞ'

/-- Word-character test for an optional neighbouring character (out of bounds
counts as non-word, as for the regex `\b` at the text edges). -/
def wordOpt : Option Char → Bool
  | some c => isWordChar c
  | none => false

/-- Try to match `kp` case-insensitively (simple case folding) at the head of
`rest`; returns the matched region and the remainder. -/
def takeFoldMatch : List Char → List Char → Option (List Char × List Char)
  | [], rest => some ([], rest)
  | _ :: _, [] => none
  | k :: ks, c :: cs =>
    if foldChar c = foldChar k then
      (takeFoldMatch ks cs).map (fun p => (c :: p.1, p.2))
    else none

/-- Byte offset of the first match of the regex `(?i)\b<kp-escaped>\b` in the
text, scanning positions left to right. `prev` is the character immediately
before the current position (`none` at the start of the text). -/
def wwScan (kp : List Char) : Option Char → List Char → Option Nat
  | prev, rest =>
    let attempt : Option Unit :=
      match takeFoldMatch kp rest with
      | some (m, rem) =>
        let beforeOk := wordOpt prev ≠ wordOpt rest.head?
        let endPrev : Option Char := match m.getLast? with
          | some c => some c
          | none => prev
        let afterOk := wordOpt endPrev ≠ wordOpt rem.head?
        if beforeOk ∧ afterOk then some () else none
      | none => none
    match attempt with
    | some _ => some 0
    | none =>
      match rest with
      | [] => none
      | c :: cs => (wwScan kp (some c) cs).map (c.utf8Size + ·)

/-- `src/keyphrase.rs` `find_keyphrase`: strategy dispatch. `Simple` lowercases
both sides and searches in the lowercased text (the returned byte offset is an
offset into the lowercased text, exactly as in the source). `WholeWord` is the
regex `(?i)\b..\b` search on the original text (the escaped phrase is a
literal; the regex always compiles, so the `Err` fallback is unreachable).
`Exact` is a case-sensitive search. -/
def find_keyphrase (text keyphrase : List Char)
    (options : KeyphraseProcessingOptions) : Option Nat :=
  match options.matching_strategy with
  | KeyphraseMatchingStrategy.Simple =>
    findSub (lowerStr text) (lowerStr keyphrase)
  | KeyphraseMatchingStrategy.WholeWord => wwScan keyphrase none text
  | KeyphraseMatchingStrategy.Exact => findSub text keyphrase

/-- The `while let` scan of `detect_all_keyphrases` for one keyphrase: find the
phrase in `&text[start..]`, record the match at the absolute position with
`end = start + keyphrase byte length`, and continue past it. The `fuel`
argument bounds the iteration count; `none` models an abnormal outcome (a
slice panic, or non-termination of the source loop on an empty phrase). Fuel
`byteLen text + 2` suffices for every nonempty keyphrase, since the cursor
strictly increases and a cursor past the end makes the slice panic. -/
def scan_keyphrase (text : List Char) (ka : KeyphraseAction)
    (options : KeyphraseProcessingOptions) :
    Nat → Nat → Option (List KeyphraseMatch)
  | 0, _ => none
  | fuel + 1, start =>
    match bytesDrop text start with
    | none => none
    | some sub =>
      match find_keyphrase sub ka.keyphrase options with
      | none => some []
      | some pos =>
        let absolute := start + pos
        let m : KeyphraseMatch :=
          ⟨ka.keyphrase, ka.action, absolute, absolute + byteLen ka.keyphrase⟩
        (scan_keyphrase text ka options fuel (absolute + byteLen ka.keyphrase)).map
          (m :: ·)

/-- The pre-sort match list of `detect_all_keyphrases`: per-keyphrase scans in
configuration order, concatenated. -/
def detect_raw (text : List Char) : List KeyphraseAction →
    KeyphraseProcessingOptions → Option (List KeyphraseMatch)
  | [], _ => some []
  | ka :: rest, options =>
    match scan_keyphrase text ka options (byteLen text + 2) 0 with
    | none => none
    | some ms =>
      match detect_raw text rest options with
      | none => none
      | some ms2 => some (ms ++ ms2)

/-- Stable insertion by `start_pos` (earlier elements come before equal later
ones). -/
def insertByStart (m : KeyphraseMatch) : List KeyphraseMatch → List KeyphraseMatch
  | [] => [m]
  | y :: ys =>
    if m.start_pos ≤ y.start_pos then m :: y :: ys else y :: insertByStart m ys

/-- Models `Vec::sort_by_key(|m| m.start_pos)` — a stable sort by start
offset. A stable sort is uniquely determined by the key order, so insertion
sort with ties kept in input order is extensionally the source's sort. -/
def sortByStart : List KeyphraseMatch → List KeyphraseMatch
  | [] => []
  | x :: xs => insertByStart x (sortByStart xs)

/-- `src/keyphrase.rs` `detect_all_keyphrases`: scan every keyphrase, then
sort all matches by ascending `start_pos`. -/
def detect_all_keyphrases (text : List Char) (keyphrases : List KeyphraseAction)
    (options : KeyphraseProcessingOptions) : Option (List KeyphraseMatch) :=
  (detect_raw text keyphrases options).map sortByStart

/-- The punctuation set of `process_chained_actions`
(`, ; : . ! ? ' " ) \x7d ]`). The quote, double-quote and closing-brace
characters are written numerically to keep the source free of quoting
ambiguity: 39 is the apostrophe, 34 the double quote, 125 the closing brace. -/
def punctuation_chars : List Char :=
  [',', ';', ':', '.', '!', '?', Char.ofNat 39, Char.ofNat 34, ')', Char.ofNat 125, ']']

/-- Membership in the punctuation set. -/
def isPunct (c : Char) : Bool :=
  punctuation_chars.contains c

/-- Drop the last character when it is punctuation (the `chars().last()` +
`pop()` step on the gap before a match). -/
def dropLastPunct (l : List Char) : List Char :=
  match l.getLast? with
  | some c => if isPunct c then l.dropLast else l
  | none => l

/-- The whitespace-collapsing fold at the end of `process_chained_actions`
(and, extensionally, the regex `\s+` → `" "` replacement of
`src/text_processing.rs`): every maximal whitespace run becomes one ASCII
space. `lastWasWs` is the `last_was_whitespace` flag. -/
def collapseGo (lastWasWs : Bool) : List Char → List Char
  | [] => []
  | c :: cs =>
    if isWs c then
      if lastWasWs then collapseGo true cs else ' ' :: collapseGo true cs
    else c :: collapseGo false cs

/-- Whitespace normalization with an initially clear flag. -/
def collapseWs (s : List Char) : List Char :=
  collapseGo false s

/-- Rust `str::trim_start` on the modelled whitespace set. -/
def dropLeadingWs (s : List Char) : List Char :=
  s.dropWhile isWs

/-- Rust `str::trim_end` on the modelled whitespace set. -/
def dropTrailingWs : List Char → List Char
  | [] => []
  | c :: cs =>
    match dropTrailingWs cs with
    | [] => if isWs c then [] else [c]
    | r => c :: r

/-- Rust `str::trim`. -/
def trimStr (s : List Char) : List Char :=
  dropTrailingWs (dropLeadingWs s)

/-- The gap-copying step of the reconstruction loop: when the current match
starts after the cursor (`km.start_pos > last_end`), append the slice
`&text[last_end..start]` with one trailing punctuation character dropped;
otherwise the accumulator is unchanged. `none` models the slice panic. -/
def pcaGap (text : List Char) (last_end start : Nat) (acc : List Char) :
    Option (List Char) :=
  if last_end < start then
    match bytesSlice text last_end start with
    | some pre => some (acc ++ dropLastPunct pre)
    | none => none
  else some acc

/-- The punctuation-skip step of the reconstruction loop: move the cursor to
the match's `end_pos`, and when the character immediately after it (read from
`&text[end..]`, whose slicing can panic) is punctuation, skip it too. -/
def pcaSkip (text : List Char) (e : Nat) : Option Nat :=
  match (if e < byteLen text then bytesDrop text e else some []) with
  | none => none
  | some after =>
    some
      (match after.head? with
       | some c => if isPunct c then e + c.utf8Size else e
       | none => e)

/-- The reconstruction loop of `process_chained_actions`: walk the matches,
copying each gap (with one trailing punctuation character of the gap dropped),
skipping each matched span, and skipping one punctuation character right after
the span. Returns the final cursor and the accumulated output; `none` models a
slice panic. -/
def pcaLoop (text : List Char) :
    List KeyphraseMatch → Nat → List Char → Option (Nat × List Char)
  | [], last_end, acc => some (last_end, acc)
  | km :: rest, last_end, acc =>
    match pcaGap text last_end km.start_pos acc with
    | none => none
    | some acc2 =>
      match pcaSkip text km.end_pos with
      | none => none
      | some le3 => pcaLoop text rest le3 acc2

/-- `src/keyphrase.rs` `process_chained_actions`, text part: reconstruction
loop, then the remaining tail, then removal of leading punctuation, whitespace
normalization, and a final trim. `none` models a slice panic. The `dry_run`
flag only affects action execution and logging, not the returned text. -/
def process_chained_actions (text : List Char) (ms : List KeyphraseMatch)
    (dry_run : Bool) : Option (List Char) :=
  match pcaLoop text ms 0 [] with
  | none => none
  | some (last_end, acc) =>
    match (if last_end < byteLen text then bytesDrop text last_end else some []) with
    | none => none
    | some tl =>
      some (trimStr (collapseWs ((acc ++ tl).dropWhile isPunct)))

/-- The `execute_action` invocations `process_chained_actions` performs: none
in dry-run mode (actions are only logged), otherwise one per match in match
order (launch failures are logged and do not stop the chain). -/
def executed_actions (ms : List KeyphraseMatch) (dry_run : Bool) :
    List ActionType :=
  if dry_run then [] else ms.map (fun m => m.action)

/-- `src/keyphrase.rs` `process_keyphrases_enhanced`: detect, return the text
unchanged when nothing matched, otherwise reconstruct. -/
def process_keyphrases_enhanced (text : List Char)
    (keyphrases : List KeyphraseAction) (dry_run : Bool)
    (options : KeyphraseProcessingOptions) : Option (List Char) :=
  match detect_all_keyphrases text keyphrases options with
  | none => none
  | some ms =>
    if ms = [] then some text
    else process_chained_actions text ms dry_run

/-- `src/config.rs` `TextCleaningOptions`. -/
structure TextCleaningOptions where
  trim_whitespace : Bool
  normalize_newlines : Bool
  remove_extra_spaces : Bool
  capitalize_sentences : Bool
deriving DecidableEq, Repr

/-- `src/text_processing.rs` `normalize_newlines` and the in-line
`replace("\r\n", "\n")` of `apply_text_cleaning`: left-to-right,
non-overlapping replacement of CRLF by LF. -/
def normalize_newlines : List Char → List Char
  | [] => []
  | [c] => [c]
  | c :: d :: rest =>
    if c = '\r' ∧ d = '\n' then '\n' :: normalize_newlines rest
    else c :: normalize_newlines (d :: rest)

/-- The 26 ASCII lowercase letters (the regex class `[a-z]`). -/
def lowerAZ : List Char :=
  ['a', 'b', 'c', 'd', 'e', 'f', 'g', 'h', 'i', 'j', 'k', 'l', 'm',
   'n', 'o', 'p', 'q', 'r', 's', 't', 'u', 'v', 'w', 'x', 'y', 'z']

/-- Membership in `[a-z]`. -/
def isLowerAZ (c : Char) : Bool :=
  lowerAZ.contains c

/-- ASCII uppercasing of a lowercase letter (`str::to_uppercase` on a single
`[a-z]` character). -/
def upperAZ (c : Char) : Char :=
  Char.ofNat (c.toNat - 32)

/-- Sentence-ending punctuation of the capitalization regex (`[.!?]`). -/
def isSentEnd (c : Char) : Bool :=
  c = '.' || c = '!' || c = '?'

/-- Scanner state for `capitalize_sentences`: at the start anchor `^`, in plain
text, just after `[.!?]`, or after `[.!?]` followed by at least one whitespace
character (where `(?i)` aside, the next `[a-z]` letter is a match). -/
inductive CapState where
  | start
  | normal
  | afterPunct
  | afterPunctWs
deriving DecidableEq, Repr

/-- `src/text_processing.rs` `capitalize_sentences`, modelled as a scanner:
the regex `(?:^|[.!?]\s+)([a-z])` with `replace_all` uppercases exactly those
`[a-z]` characters that stand at the start of the text or after a `[.!?]`
character followed by one or more whitespace characters (candidate matches
cannot overlap, so `replace_all` rewrites every candidate). -/
def capGo : CapState → List Char → List Char
  | _, [] => []
  | st, c :: cs =>
    if (st = CapState.start ∨ st = CapState.afterPunctWs) ∧ isLowerAZ c then
      upperAZ c :: capGo CapState.normal cs
    else if isSentEnd c then
      c :: capGo CapState.afterPunct cs
    else if isWs c then
      c :: capGo
        (if st = CapState.afterPunct ∨ st = CapState.afterPunctWs then
          CapState.afterPunctWs
         else CapState.normal) cs
    else c :: capGo CapState.normal cs

/-- `capitalize_sentences` entry point (the `^` anchor is live initially). -/
def capitalize_sentences (s : List Char) : List Char :=
  capGo CapState.start s

/-- `src/text_processing.rs` `apply_text_cleaning`. The `config` argument is
the `text_cleaning` field of `AppConfig` (the only field the function reads):
`None` returns the input unchanged; otherwise the four passes run in order,
each gated by its flag. The `\s+` regex always compiles, so the warn-and-skip
fallback is unreachable. -/
def apply_text_cleaning (text : List Char)
    (config : Option TextCleaningOptions) : List Char :=
  match config with
  | none => text
  | some o =>
    let r := text
    let r := if o.trim_whitespace then trimStr r else r
    let r := if o.normalize_newlines then normalize_newlines r else r
    let r := if o.remove_extra_spaces then collapseWs r else r
    let r := if o.capitalize_sentences then capitalize_sentences r else r
    r

/-- `src/clipboard.rs` `normalize_for_comparison`: trim, then CRLF → LF, then
CR → LF (the second replacement is per-character). -/
def normalize_for_comparison (s : List Char) : List Char :=
  (normalize_newlines (trimStr s)).map (fun c => if c = '\r' then '\n' else c)

/-- `src/clipboard.rs` `ensure_clipboard_content_with_monitoring`, abstracted
over the sequence of clipboard read-back outcomes (`none` = read error) and
counting the clipboard writes the function performs: an initial write; on a
first read-back that fails or differs (normalized), a second write; and a
third write only when a second read-back succeeds and still differs. Write
errors are not modelled (every `copy_to_clipboard_with_format` call counts as
one write). -/
def ensure_clipboard_content_with_monitoring (text : List Char)
    (reads : List (Option (List Char))) : Nat :=
  1 +
    match reads[0]? with
    | some (some current) =>
      if normalize_for_comparison current = normalize_for_comparison text then 0
      else
        1 +
          match reads[1]? with
          | some (some latest) =>
            if normalize_for_comparison latest = normalize_for_comparison text
            then 0 else 1
          | _ => 0
    | _ => 1

/-- `src/lib.rs` `Meta`: the parsed artifact shape. -/
structure Meta where
  llm_result : Option (List Char)
  result : Option (List Char)
  raw_result : Option (List Char)
deriving DecidableEq, Repr

/-- `src/lib.rs` `extract_text_by_preference`. -/
def extract_text_by_preference (meta : Meta) (preference : List Char) :
    Option (List Char) :=
  let p := lowerStr preference
  if p = String.toList "llm" then meta.llm_result
  else if p = String.toList "raw" then meta.raw_result
  else if p = String.toList "intermediate" then meta.result
  else
    (meta.llm_result.orElse fun _ =>
      (meta.result.orElse fun _ => meta.raw_result))

/-- One attempt's world outcome in the read+parse loop of
`process_meta_file`: the file read fails, the JSON parse fails, or a `Meta`
value is parsed. -/
inductive AttemptOutcome where
  | readFailure
  | parseFailure
  | parsed (m : Meta)
deriving DecidableEq, Repr

/-- The retry loop of `src/meta_processor.rs` `process_meta_file` (after the
debounce check), driven by the list of per-attempt outcomes. Returns the
number of read attempts made and, when a clipboard delivery was reached, the
attempt number together with the final text handed to
`ensure_clipboard_content_with_monitoring`. A read failure, parse failure or
empty extraction moves to the next attempt; exhausting the attempts (empty
list) ends with no write; a successful extraction runs keyphrase processing
(when keyphrases are configured) and text cleaning, and delivers — unless the
keyphrase step aborts (slice panic), in which case nothing is written. -/
def metaGo (pref : List Char) (keyphrases : List KeyphraseAction)
    (options : KeyphraseProcessingOptions) (dry_run : Bool)
    (cleaning : Option TextCleaningOptions) :
    List AttemptOutcome → Nat → Nat × Option (Nat × List Char)
  | [], used => (used, none)
  | o :: rest, used =>
    match o with
    | AttemptOutcome.readFailure =>
      metaGo pref keyphrases options dry_run cleaning rest (used + 1)
    | AttemptOutcome.parseFailure =>
      metaGo pref keyphrases options dry_run cleaning rest (used + 1)
    | AttemptOutcome.parsed m =>
      match extract_text_by_preference m pref with
      | some text =>
        let cleanedO : Option (List Char) :=
          if keyphrases = [] then some text
          else process_keyphrases_enhanced text keyphrases dry_run options
        match cleanedO with
        | none => (used + 1, none)
        | some cleaned =>
          (used + 1, some (used + 1, apply_text_cleaning cleaned cleaning))
      | none =>
        metaGo pref keyphrases options dry_run cleaning rest (used + 1)

/-- `process_meta_file`'s bounded loop: at most 5 attempts (`1..=5`), fed by
the outcome list. -/
def process_meta_attempts (outcomes : List AttemptOutcome) (pref : List Char)
    (keyphrases : List KeyphraseAction) (options : KeyphraseProcessingOptions)
    (dry_run : Bool) (cleaning : Option TextCleaningOptions) :
    Nat × Option (Nat × List Char) :=
  metaGo pref keyphrases options dry_run cleaning (outcomes.take 5) 0

/-- Claim C3's description of single-match reconstruction, written from the
spec: the span is removed; one punctuation character immediately before it and
one immediately after it are dropped when present; then a leading run of
punctuation is stripped, whitespace runs are collapsed to single spaces, and
the result is trimmed. -/
def specReconSingle (pre tail : List Char) : List Char :=
  let tail' :=
    match tail with
    | [] => []
    | c :: cs => if isPunct c then cs else c :: cs
  trimStr (collapseWs ((dropLastPunct pre ++ tail').dropWhile isPunct))

/-- Canonical-whitespace invariant of the collapse pass, used for the
idempotence proofs: every whitespace character is a single ASCII space and no
two are adjacent (`b` records whether the previous character was whitespace).
-/
def goodWs : Bool → List Char → Bool
  | _, [] => true
  | b, c :: cs =>
    if isWs c then (c == ' ') && !b && goodWs true cs else goodWs false cs

theorem byteLen_nil : byteLen [] = 0 := rfl

theorem byteLen_cons (c : Char) (s : List Char) :
    byteLen (c :: s) = c.utf8Size + byteLen s := rfl

theorem byteLen_append (u v : List Char) :
    byteLen (u ++ v) = byteLen u + byteLen v := by
  induction u with
  | nil => rw [List.nil_append, byteLen_nil, Nat.zero_add]
  | cons c u ih =>
    rw [List.cons_append, byteLen_cons, byteLen_cons, ih, Nat.add_assoc]

theorem byteLen_eq_zero {s : List Char} : byteLen s = 0 ↔ s = [] := by
  cases s with
  | nil => simp [byteLen_nil]
  | cons c cs =>
    have := c.utf8Size_pos
    simp [byteLen_cons]
    omega

theorem bytesDrop_zero (l : List Char) : bytesDrop l 0 = some l := by
  cases l <;> simp [bytesDrop]

theorem bytesTake_zero (l : List Char) : bytesTake l 0 = some [] := by
  cases l <;> simp [bytesTake]

theorem bytesDrop_append (u v : List Char) :
    bytesDrop (u ++ v) (byteLen u) = some v := by
  induction u with
  | nil => rw [List.nil_append, byteLen_nil, bytesDrop_zero]
  | cons c u ih =>
    have hp := c.utf8Size_pos
    have hne : ¬(byteLen (c :: u) = 0) := by
      simp [byteLen_eq_zero]
    have hle : c.utf8Size ≤ byteLen (c :: u) := by
      rw [byteLen_cons]; omega
    have hsub : byteLen (c :: u) - c.utf8Size = byteLen u := by
      rw [byteLen_cons]; omega
    rw [List.cons_append, bytesDrop, if_neg hne]
    simp only [hle, if_pos, hsub, ih]

theorem bytesTake_append (u v : List Char) :
    bytesTake (u ++ v) (byteLen u) = some u := by
  induction u with
  | nil => rw [List.nil_append, byteLen_nil, bytesTake_zero]
  | cons c u ih =>
    have hp := c.utf8Size_pos
    have hne : ¬(byteLen (c :: u) = 0) := by
      simp [byteLen_eq_zero]
    have hle : c.utf8Size ≤ byteLen (c :: u) := by
      rw [byteLen_cons]; omega
    have hsub : byteLen (c :: u) - c.utf8Size = byteLen u := by
      rw [byteLen_cons]; omega
    rw [List.cons_append, bytesTake, if_neg hne]
    simp only [hle, if_pos, hsub, ih]
    rfl

theorem bytesSlice_zero (s : List Char) (b : Nat) :
    bytesSlice s 0 b = bytesTake s b := by
  simp [bytesSlice, bytesDrop_zero]

theorem lowerChar_ne_nil (c : Char) : lowerChar c ≠ [] := by
  unfold lowerChar
  split_ifs <;> simp

theorem lowerStr_eq_nil {s : List Char} : lowerStr s = [] ↔ s = [] := by
  cases s with
  | nil => simp [lowerStr]
  | cons c cs =>
    simp only [lowerStr, List.map_cons, List.flatten_cons, List.append_eq_nil]
    have := lowerChar_ne_nil c
    simp [this]

/-- C10: `parse_action` is deterministic and classifies exactly as specified:
the empty string yields `None`; a nonempty string containing `:` whose prefix
before the first `:` consists only of ASCII alphanumerics, `+`, `-`, `.`
yields `OpenUrl` of the whole string; every other nonempty string yields
`OpenApplication` of the whole string. -/
theorem C10_parse_action_classification (s : List Char) :
    (s = [] → parse_action s = ActionType.None)
    ∧ (s ≠ [] → s.contains ':' = true →
        (schemeOf s).all isSchemeChar = true →
        parse_action s = ActionType.OpenUrl s)
    ∧ (s ≠ [] →
        (s.contains ':' = false ∨ (schemeOf s).all isSchemeChar = false) →
        parse_action s = ActionType.OpenApplication s) := by
  refine ⟨?_, ?_, ?_⟩
  · intro h
    subst h
    rfl
  · intro hne hcont hall
    unfold parse_action
    split_ifs with h1 h2 h3 <;>
      first
        | rfl
        | exact absurd (lowerStr_eq_nil.mp h1) hne
        | simp_all
  · intro hne hbad
    unfold parse_action
    rcases hbad with h | h <;>
      split_ifs with h1 h2 h3 <;>
        first
          | rfl
          | exact absurd (lowerStr_eq_nil.mp h1) hne
          | simp_all

/-- Witness for C10 at the three inputs named by the specification. -/
theorem C10_parse_action_classification_witness :
    parse_action [] = ActionType.None
    ∧ parse_action (String.toList "https://x.com")
        = ActionType.OpenUrl (String.toList "https://x.com")
    ∧ parse_action (String.toList "notepad")
        = ActionType.OpenApplication (String.toList "notepad") :=
  ⟨(C10_parse_action_classification []).1 rfl,
   (C10_parse_action_classification (String.toList "https://x.com")).2.1
     (by decide) (by decide) (by decide),
   (C10_parse_action_classification (String.toList "notepad")).2.2
     (by decide) (Or.inl (by decide))⟩

/-- C5: write counts of the clipboard delivery guard, for every predetermined
sequence of read-back outcomes: exactly one write when the first read-back
succeeds and compares equal under the normalization; exactly two when the
first read-back fails or differs and the second succeeds and compares equal;
exactly three when both read-backs succeed and differ; and never more than
three writes. -/
theorem C5_clipboard_guard_write_counts (text : List Char)
    (reads : List (Option (List Char))) :
    (∀ s, reads[0]? = some (some s) →
      normalize_for_comparison s = normalize_for_comparison text →
      ensure_clipboard_content_with_monitoring text reads = 1)
    ∧ ((reads[0]? = none ∨ reads[0]? = some none ∨
        ∃ s, reads[0]? = some (some s) ∧
          normalize_for_comparison s ≠ normalize_for_comparison text) →
       (∃ u, reads[1]? = some (some u) ∧
          normalize_for_comparison u = normalize_for_comparison text) →
       ensure_clipboard_content_with_monitoring text reads = 2)
    ∧ (∀ s u, reads[0]? = some (some s) →
        normalize_for_comparison s ≠ normalize_for_comparison text →
        reads[1]? = some (some u) →
        normalize_for_comparison u ≠ normalize_for_comparison text →
        ensure_clipboard_content_with_monitoring text reads = 3)
    ∧ ensure_clipboard_content_with_monitoring text reads ≤ 3 := by
  refine ⟨?_, ?_, ?_, ?_⟩
  · intro s h0 heq
    unfold ensure_clipboard_content_with_monitoring
    rw [h0]
    simp [heq]
  · intro h0 h1
    rcases h1 with ⟨u, h1, hueq⟩
    unfold ensure_clipboard_content_with_monitoring
    rcases h0 with h0 | h0 | h0
    · rw [h0]
      rfl
    · rw [h0]
      rfl
    · rcases h0 with ⟨s, h0, hsneq⟩
      rw [h0, h1]
      simp [hsneq, hueq]
  · intro s u h0 hsneq h1 huneq
    unfold ensure_clipboard_content_with_monitoring
    rw [h0, h1]
    simp [hsneq, huneq]
  · unfold ensure_clipboard_content_with_monitoring
    rcases h0 : reads[0]? with _ | r0
    · simp
    · rcases r0 with _ | s
      · simp
      · dsimp only
        split_ifs with hcmp
        · simp
        · rcases h1 : reads[1]? with _ | r1
          · simp
          · rcases r1 with _ | u
            · simp
            · dsimp only
              split_ifs <;> simp

/-- Witness for C5: with a first read-back equal to the written text, exactly
one write occurs. -/
theorem C5_clipboard_guard_write_counts_witness :
    ensure_clipboard_content_with_monitoring (String.toList "a")
      [some (String.toList "a")] = 1 :=
  (C5_clipboard_guard_write_counts (String.toList "a")
    [some (String.toList "a")]).1 (String.toList "a") rfl rfl

/-- Counterexample to C2 as stated: with an empty match list,
`process_chained_actions` is not the identity — leading punctuation is
stripped, whitespace is collapsed and the result is trimmed. -/
theorem C2_counterexample :
    process_chained_actions (String.toList ", x") [] true
      ≠ some (String.toList ", x") := by
  decide

/-- C2 (amended): `process_chained_actions` on an empty match list executes no
actions and applies only the final cleanup passes (leading punctuation
stripped, whitespace runs collapsed, trimmed); the wrapper
`process_keyphrases_enhanced` returns the text byte-for-byte unchanged when no
match is detected (in particular for an empty keyphrase list). -/
theorem C2_empty_matches (text : List Char) (dry_run : Bool)
    (options : KeyphraseProcessingOptions) :
    process_chained_actions text [] dry_run
      = some (trimStr (collapseWs (text.dropWhile isPunct)))
    ∧ executed_actions [] dry_run = []
    ∧ process_keyphrases_enhanced text [] dry_run options = some text := by
  refine ⟨?_, ?_, ?_⟩
  · unfold process_chained_actions pcaLoop
    rcases Nat.eq_zero_or_pos (byteLen text) with hz | hp
    · have : text = [] := byteLen_eq_zero.mp hz
      subst this
      simp [byteLen_nil]
    · have hlt : 0 < byteLen text := hp
      simp only [hlt, if_pos, bytesDrop_zero]
      simp
  · cases dry_run <;> rfl
  · rfl

/-- Counterexample to C7 as stated: an artifact whose selected field is
present but empty is not retried — extraction succeeds on attempt 1 and the
(empty) text is delivered to the clipboard, instead of 5 failing attempts and
no write. -/
theorem C7_counterexample :
    process_meta_attempts
      [AttemptOutcome.parsed ⟨some [], none, none⟩, AttemptOutcome.readFailure,
       AttemptOutcome.readFailure, AttemptOutcome.readFailure,
       AttemptOutcome.readFailure]
      (String.toList "llm") [] default_options true none = (1, some (1, []))
    ∧ ((1 : Nat), some ((1 : Nat), ([] : List Char)))
        ≠ ((5 : Nat), (none : Option (Nat × List Char))) := by
  refine ⟨by decide, by decide⟩

/-- C7 (amended): a selected field that is present — even when it is the empty
string — makes the attempt succeed immediately: no retry happens, and (with no
keyphrases configured, so that keyphrase processing is skipped) the cleaned
text is delivered to the clipboard on that same attempt. Only an absent
selected field is the retryable failure. -/
theorem C7_present_field_is_success (llm res raw : Option (List Char))
    (pref : List Char) (rest : List AttemptOutcome) (dry_run : Bool)
    (options : KeyphraseProcessingOptions)
    (cleaning : Option TextCleaningOptions) (t : List Char)
    (h : extract_text_by_preference ⟨llm, res, raw⟩ pref = some t) :
    process_meta_attempts (AttemptOutcome.parsed ⟨llm, res, raw⟩ :: rest) pref
      [] options dry_run cleaning
      = (1, some (1, apply_text_cleaning t cleaning)) := by
  unfold process_meta_attempts
  rw [List.take_cons (by omega)]
  unfold metaGo
  dsimp only
  rw [h]
  rfl

/-- Witness for C7 (amended) at an artifact with an empty `llmResult`. -/
theorem C7_present_field_is_success_witness :
    process_meta_attempts [AttemptOutcome.parsed ⟨some [], none, none⟩]
      (String.toList "llm") [] default_options false none
      = (1, some (1, [])) :=
  C7_present_field_is_success (some []) none none (String.toList "llm") []
    false default_options none [] (by decide)

/-- C9: evaluation of the code at the failing input. With the default Simple
strategy, the keyphrase `"b"` and the text `"ẞb"`, the Simple search runs on
the lowercased text (`"ßb"`, in which `b` sits at byte offset 2) but the
offset is used against the original text (in which byte 2 is inside the
three-byte `ẞ`), so the reconstruction slices at a non-character-boundary and
the process aborts (`none` = panic) instead of delivering text. -/
theorem C9_single_artifact_panics :
    process_keyphrases_enhanced (String.toList "ẞb")
      [⟨String.toList "b", ActionType.None⟩] true default_options = none := by
  decide

/-- C6: evaluation of the code at the failing input. Reading and parsing
succeed on attempt 1 and field extraction succeeds (first conjunct), yet no
clipboard delivery is performed for that attempt (second conjunct): the
downstream keyphrase processing aborts on a non-character-boundary slice, so
the run ends with one read and no write instead of a delivery for attempt 1. -/
theorem C6_no_delivery_on_successful_attempt :
    extract_text_by_preference ⟨some (String.toList "ẞb"), none, none⟩
      (String.toList "llm") = some (String.toList "ẞb")
    ∧ process_meta_attempts
        [AttemptOutcome.parsed ⟨some (String.toList "ẞb"), none, none⟩,
         AttemptOutcome.readFailure, AttemptOutcome.readFailure,
         AttemptOutcome.readFailure, AttemptOutcome.readFailure]
        (String.toList "llm") [⟨String.toList "b", ActionType.None⟩]
        default_options true none = (1, none) := by
  refine ⟨by decide, by decide⟩

theorem scan_keyphrase_spans (text : List Char) (ka : KeyphraseAction)
    (options : KeyphraseProcessingOptions) :
    ∀ fuel start ms, scan_keyphrase text ka options fuel start = some ms →
      ∀ m ∈ ms, m.keyphrase = ka.keyphrase
        ∧ m.end_pos = m.start_pos + byteLen ka.keyphrase := by
  intro fuel
  induction fuel with
  | zero =>
    intro start ms h
    simp [scan_keyphrase] at h
  | succ fuel ih =>
    intro start ms h
    rw [scan_keyphrase] at h
    rcases hdrop : bytesDrop text start with _ | sub
    · rw [hdrop] at h
      exact absurd h (by simp)
    · rw [hdrop] at h
      dsimp only at h
      rcases hfind : find_keyphrase sub ka.keyphrase options with _ | pos
      · rw [hfind] at h
        simp only [Option.some.injEq] at h
        subst h
        intro m hm
        simp at hm
      · rw [hfind] at h
        dsimp only at h
        rcases hrec : scan_keyphrase text ka options fuel
            (start + pos + byteLen ka.keyphrase) with _ | ms'
        · rw [hrec] at h
          simp at h
        · rw [hrec] at h
          simp only [Option.map_some', Option.some.injEq] at h
          subst h
          intro m hm
          rcases List.mem_cons.mp hm with rfl | hm'
          · exact ⟨rfl, rfl⟩
          · exact ih _ _ hrec m hm'

theorem detect_raw_spans (text : List Char) :
    ∀ (kps : List KeyphraseAction) (options : KeyphraseProcessingOptions) l,
      detect_raw text kps options = some l →
      ∀ m ∈ l, m.end_pos = m.start_pos + byteLen m.keyphrase := by
  intro kps
  induction kps with
  | nil =>
    intro options l h m hm
    simp only [detect_raw, Option.some.injEq] at h
    subst h
    simp at hm
  | cons ka rest ih =>
    intro options l h m hm
    rw [detect_raw] at h
    rcases h1 : scan_keyphrase text ka options (byteLen text + 2) 0 with _ | ms
    · rw [h1] at h
      simp at h
    · rw [h1] at h
      rcases h2 : detect_raw text rest options with _ | ms2
      · rw [h2] at h
        simp at h
      · rw [h2] at h
        simp only [Option.some.injEq] at h
        subst h
        rcases List.mem_append.mp hm with hm' | hm'
        · obtain ⟨hk, he⟩ := scan_keyphrase_spans text ka options _ _ _ h1 m hm'
          rw [he, hk]
        · exact ih options ms2 h2 m hm'

theorem mem_insertByStart {m x : KeyphraseMatch} {l : List KeyphraseMatch} :
    m ∈ insertByStart x l ↔ m = x ∨ m ∈ l := by
  induction l with
  | nil => simp [insertByStart]
  | cons y ys ih =>
    rw [insertByStart]
    split_ifs
    · simp
    · simp only [List.mem_cons, ih]
      tauto

theorem mem_sortByStart {m : KeyphraseMatch} {l : List KeyphraseMatch} :
    m ∈ sortByStart l ↔ m ∈ l := by
  induction l with
  | nil => simp [sortByStart]
  | cons x xs ih =>
    rw [sortByStart, mem_insertByStart]
    simp [ih]

/-- Counterexample to C1 as stated: with the default Simple strategy, the
text `"ẞb"` and the keyphrase `"b"`, `detect_all_keyphrases` returns a match
with span `[2, 3)`, but byte offset 2 is inside the three-byte `ẞ`, so the
span between the offsets is not a substring of the text at all (slicing it
panics): its `end - start` is not the byte length of any matched substring. -/
theorem C1_counterexample :
    detect_all_keyphrases (String.toList "ẞb")
      [⟨String.toList "b", ActionType.None⟩] default_options
      = some [⟨String.toList "b", ActionType.None, 2, 3⟩,
              ⟨String.toList "b", ActionType.None, 3, 4⟩]
    ∧ bytesSlice (String.toList "ẞb") 2 3 = none := by
  refine ⟨by decide, by decide⟩

/-- C1 (amended): in every strategy, `end_pos - start_pos` of every produced
match equals the byte length of the configured keyphrase literal (the code
always sets `end = start + keyphrase.len()`); for case-insensitive matches
whose casefolding changes byte lengths, the offsets need not be character
boundaries of the text. -/
theorem C1_span_is_keyphrase_length (text : List Char)
    (kps : List KeyphraseAction) (options : KeyphraseProcessingOptions)
    (ms : List KeyphraseMatch)
    (h : detect_all_keyphrases text kps options = some ms) :
    ∀ m ∈ ms, m.end_pos = m.start_pos + byteLen m.keyphrase := by
  unfold detect_all_keyphrases at h
  rcases hr : detect_raw text kps options with _ | l
  · rw [hr] at h
    simp at h
  · rw [hr] at h
    simp only [Option.map_some', Option.some.injEq] at h
    subst h
    intro m hm
    exact detect_raw_spans text kps options l hr m (mem_sortByStart.mp hm)

/-- Witness for C1 (amended) on a concrete detection run. -/
theorem C1_span_is_keyphrase_length_witness :
    (⟨String.toList "a", ActionType.None, 0, 1⟩ : KeyphraseMatch).end_pos
      = (⟨String.toList "a", ActionType.None, 0, 1⟩ : KeyphraseMatch).start_pos
        + byteLen (⟨String.toList "a", ActionType.None, 0, 1⟩ : KeyphraseMatch).keyphrase :=
  C1_span_is_keyphrase_length (String.toList "ab")
    [⟨String.toList "a", ActionType.None⟩] default_options
    [⟨String.toList "a", ActionType.None, 0, 1⟩] (by decide)
    ⟨String.toList "a", ActionType.None, 0, 1⟩ (by decide)

theorem sorted_insertByStart {x : KeyphraseMatch} {l : List KeyphraseMatch}
    (h : List.Sorted (fun a b => a.start_pos ≤ b.start_pos) l) :
    List.Sorted (fun a b => a.start_pos ≤ b.start_pos) (insertByStart x l) := by
  induction l with
  | nil => simp [insertByStart]
  | cons y ys ih =>
    rw [List.sorted_cons] at h
    obtain ⟨hy, hys⟩ := h
    rw [insertByStart]
    split_ifs with hxy
    · rw [List.sorted_cons]
      refine ⟨?_, ?_⟩
      · intro b hb
        rcases List.mem_cons.mp hb with rfl | hb
        · exact hxy
        · exact le_trans hxy (hy b hb)
      · rw [List.sorted_cons]
        exact ⟨hy, hys⟩
    · rw [List.sorted_cons]
      refine ⟨?_, ih hys⟩
      intro b hb
      rcases mem_insertByStart.mp hb with rfl | hb
      · omega
      · exact hy b hb

theorem sorted_sortByStart (l : List KeyphraseMatch) :
    List.Sorted (fun a b => a.start_pos ≤ b.start_pos) (sortByStart l) := by
  induction l with
  | nil => simp [sortByStart]
  | cons x xs ih =>
    rw [sortByStart]
    exact sorted_insertByStart ih

theorem filter_insertByStart (x : KeyphraseMatch) (l : List KeyphraseMatch)
    (s : Nat) :
    (insertByStart x l).filter (fun m => m.start_pos == s)
      = if x.start_pos == s then
          x :: l.filter (fun m => m.start_pos == s)
        else l.filter (fun m => m.start_pos == s) := by
  induction l with
  | nil =>
    cases hpx : (x.start_pos == s) <;> simp [insertByStart, List.filter, hpx]
  | cons y ys ih =>
    by_cases hxy : x.start_pos ≤ y.start_pos
    · rw [insertByStart, if_pos hxy]
      cases hpx : (x.start_pos == s) <;> simp [List.filter_cons, hpx]
    · rw [insertByStart, if_neg hxy]
      cases hpx : (x.start_pos == s) with
      | true =>
        have hxs : x.start_pos = s := by simpa using hpx
        have hys' : (y.start_pos == s) = false := by
          simp only [beq_eq_false_iff_ne, ne_eq]
          omega
        simp [List.filter_cons, hys', ih, hpx]
      | false =>
        simp [List.filter_cons, ih, hpx]

theorem filter_sortByStart (l : List KeyphraseMatch) (s : Nat) :
    (sortByStart l).filter (fun m => m.start_pos == s)
      = l.filter (fun m => m.start_pos == s) := by
  induction l with
  | nil => rfl
  | cons x xs ih =>
    rw [sortByStart, filter_insertByStart]
    cases hpx : (x.start_pos == s) <;> simp [List.filter_cons, hpx, ih]

/-- C4: whenever the scan terminates normally with pre-sort match list `l`
(in configuration/discovery order), `detect_all_keyphrases` returns the stable
sort of `l` by `start_pos`: the result is sorted by ascending start offset for
every configured keyphrase list order, and the matches with any given start
offset appear exactly in their discovery order. -/
theorem C4_detect_all_sorted_stable (text : List Char)
    (kps : List KeyphraseAction) (options : KeyphraseProcessingOptions)
    (l : List KeyphraseMatch) (h : detect_raw text kps options = some l) :
    detect_all_keyphrases text kps options = some (sortByStart l)
    ∧ List.Sorted (fun a b => a.start_pos ≤ b.start_pos) (sortByStart l)
    ∧ ∀ s, (sortByStart l).filter (fun m => m.start_pos == s)
        = l.filter (fun m => m.start_pos == s) := by
  refine ⟨?_, sorted_sortByStart l, fun s => filter_sortByStart l s⟩
  unfold detect_all_keyphrases
  rw [h]
  rfl

/-- Witness for C4 on a concrete detection run with two same-phrase matches:
the returned list is the stable sort of the discovery-order list, it is
sorted, and the matches at start offset 0 are exactly the discovered ones. -/
theorem C4_detect_all_sorted_stable_witness :
    detect_all_keyphrases (String.toList "aa")
      [⟨String.toList "a", ActionType.None⟩] default_options
      = some (sortByStart [⟨String.toList "a", ActionType.None, 0, 1⟩,
                           ⟨String.toList "a", ActionType.None, 1, 2⟩])
    ∧ List.Sorted (fun a b => a.start_pos ≤ b.start_pos)
        (sortByStart [⟨String.toList "a", ActionType.None, 0, 1⟩,
                      ⟨String.toList "a", ActionType.None, 1, 2⟩])
    ∧ (sortByStart [⟨String.toList "a", ActionType.None, 0, 1⟩,
                    ⟨String.toList "a", ActionType.None, 1, 2⟩]).filter
        (fun m => m.start_pos == 0)
      = [⟨String.toList "a", ActionType.None, 0, 1⟩,
         ⟨String.toList "a", ActionType.None, 1, 2⟩].filter
          (fun m => m.start_pos == 0) :=
  ⟨(C4_detect_all_sorted_stable (String.toList "aa")
      [⟨String.toList "a", ActionType.None⟩] default_options
      [⟨String.toList "a", ActionType.None, 0, 1⟩,
       ⟨String.toList "a", ActionType.None, 1, 2⟩] (by decide)).1,
   (C4_detect_all_sorted_stable (String.toList "aa")
      [⟨String.toList "a", ActionType.None⟩] default_options
      [⟨String.toList "a", ActionType.None, 0, 1⟩,
       ⟨String.toList "a", ActionType.None, 1, 2⟩] (by decide)).2.1,
   (C4_detect_all_sorted_stable (String.toList "aa")
      [⟨String.toList "a", ActionType.None⟩] default_options
      [⟨String.toList "a", ActionType.None, 0, 1⟩,
       ⟨String.toList "a", ActionType.None, 1, 2⟩] (by decide)).2.2 0⟩

/-- C3: for a single match whose offsets decompose the text as
`pre ++ span ++ tail` (equivalently: start and end are character-boundary
offsets with `start ≤ end ≤ length`), the reconstruction equals the spec-side
description: the span is removed, at most one punctuation character
immediately before and one immediately after it are dropped, then a leading
punctuation run is stripped, whitespace runs are collapsed to single spaces,
and the result is trimmed. -/
theorem C3_single_match_reconstruction (pre span tail : List Char)
    (kp : List Char) (act : ActionType) (dry_run : Bool) :
    process_chained_actions (pre ++ span ++ tail)
      [⟨kp, act, byteLen pre, byteLen pre + byteLen span⟩] dry_run
      = some (specReconSingle pre tail) := by
  have hassoc : pre ++ span ++ tail = pre ++ (span ++ tail) :=
    List.append_assoc pre span tail
  have htext : byteLen (pre ++ span ++ tail)
      = byteLen pre + byteLen span + byteLen tail := by
    rw [byteLen_append, byteLen_append]
  have hslice : bytesSlice (pre ++ span ++ tail) 0 (byteLen pre) = some pre := by
    rw [bytesSlice_zero, hassoc]
    exact bytesTake_append pre (span ++ tail)
  have hdropE : bytesDrop (pre ++ span ++ tail) (byteLen pre + byteLen span)
      = some tail := by
    rw [← byteLen_append]
    exact bytesDrop_append (pre ++ span) tail
  have hgap : pcaGap (pre ++ span ++ tail) 0 (byteLen pre) []
      = some (dropLastPunct pre) := by
    rcases eq_or_ne pre [] with rfl | hpre
    · rw [pcaGap, byteLen_nil]
      simp [dropLastPunct]
    · have hpos : 0 < byteLen pre := by
        rcases Nat.eq_zero_or_pos (byteLen pre) with hz | hp
        · exact absurd (byteLen_eq_zero.mp hz) hpre
        · exact hp
      rw [pcaGap, if_pos hpos, hslice]
      dsimp only
      simp only [List.nil_append]
  rw [process_chained_actions, pcaLoop]
  dsimp only
  rw [hgap]
  dsimp only
  rcases tail with _ | ⟨c, ts⟩
  · have hnlt : ¬(byteLen pre + byteLen span < byteLen (pre ++ span ++ [])) := by
      rw [htext, byteLen_nil]
      omega
    have hskip : pcaSkip (pre ++ span ++ []) (byteLen pre + byteLen span)
        = some (byteLen pre + byteLen span) := by
      rw [pcaSkip, if_neg hnlt]
      rfl
    rw [hskip]
    dsimp only
    rw [pcaLoop]
    dsimp only
    rw [if_neg hnlt]
    simp [specReconSingle]
  · have hlt : byteLen pre + byteLen span
        < byteLen (pre ++ span ++ (c :: ts)) := by
      rw [htext, byteLen_cons]
      have := c.utf8Size_pos
      omega
    by_cases hc : isPunct c
    · have hskip : pcaSkip (pre ++ span ++ (c :: ts)) (byteLen pre + byteLen span)
          = some (byteLen pre + byteLen span + c.utf8Size) := by
        rw [pcaSkip, if_pos hlt, hdropE]
        dsimp only [List.head?]
        rw [if_pos hc]
      simp only [hskip, pcaLoop]
      rcases ts with _ | ⟨d, ds⟩
      · have hnlt : ¬(byteLen pre + byteLen span + c.utf8Size
            < byteLen (pre ++ span ++ [c])) := by
          rw [htext, byteLen_cons, byteLen_nil]
          omega
        rw [if_neg hnlt]
        simp [specReconSingle, hc]
      · have hlt2 : byteLen pre + byteLen span + c.utf8Size
            < byteLen (pre ++ span ++ (c :: d :: ds)) := by
          rw [htext, byteLen_cons, byteLen_cons]
          have := d.utf8Size_pos
          omega
        rw [if_pos hlt2]
        have hdrop2 : bytesDrop (pre ++ span ++ (c :: d :: ds))
            (byteLen pre + byteLen span + c.utf8Size) = some (d :: ds) := by
          have hsplit : pre ++ span ++ (c :: d :: ds)
              = ((pre ++ span) ++ [c]) ++ (d :: ds) := by
            simp
          have hlen : byteLen ((pre ++ span) ++ [c])
              = byteLen pre + byteLen span + c.utf8Size := by
            rw [byteLen_append, byteLen_append, byteLen_cons, byteLen_nil]
            omega
          rw [hsplit, ← hlen]
          exact bytesDrop_append ((pre ++ span) ++ [c]) (d :: ds)
        rw [hdrop2]
        simp [specReconSingle, hc]
    · have hskip : pcaSkip (pre ++ span ++ (c :: ts)) (byteLen pre + byteLen span)
          = some (byteLen pre + byteLen span) := by
        rw [pcaSkip, if_pos hlt, hdropE]
        dsimp only [List.head?]
        rw [if_neg hc]
      simp only [hskip, pcaLoop]
      rw [if_pos hlt, hdropE]
      simp [specReconSingle, hc]

theorem goodWs_collapseGo (s : List Char) :
    goodWs true (collapseGo true s) = true
    ∧ goodWs false (collapseGo false s) = true := by
  induction s with
  | nil => exact ⟨rfl, rfl⟩
  | cons c cs ih =>
    by_cases hws : isWs c
    · constructor
      · rw [collapseGo, if_pos hws, if_pos rfl]
        exact ih.1
      · rw [collapseGo, if_pos hws, if_neg (by simp)]
        rw [goodWs, if_pos (show isWs ' ' = true from rfl)]
        simp only [beq_self_eq_true, Bool.not_false, Bool.true_and, Bool.and_self]
        exact ih.1
    · have h : collapseGo true (c :: cs) = c :: collapseGo false cs := by
        rw [collapseGo, if_neg hws]
      have h' : collapseGo false (c :: cs) = c :: collapseGo false cs := by
        rw [collapseGo, if_neg hws]
      rw [h, h']
      constructor <;>
        · rw [goodWs, if_neg hws]
          exact ih.2

theorem goodWs_fix (s : List Char) : ∀ b, goodWs b s = true → collapseGo b s = s := by
  induction s with
  | nil => intro b _; rfl
  | cons c cs ih =>
    intro b h
    by_cases hws : isWs c
    · rw [goodWs, if_pos hws] at h
      simp only [Bool.and_eq_true, beq_iff_eq, Bool.not_eq_true'] at h
      obtain ⟨⟨hsp, hb⟩, hrest⟩ := h
      subst hb
      rw [collapseGo, if_pos hws, if_neg (by simp)]
      rw [hsp] at hws ⊢
      rw [ih true hrest]
    · rw [goodWs, if_neg hws] at h
      rw [collapseGo, if_neg hws, ih false h]

theorem collapseWs_idem (s : List Char) :
    collapseWs (collapseWs s) = collapseWs s :=
  goodWs_fix (collapseWs s) false (goodWs_collapseGo s).2

theorem goodWs_no_cr (s : List Char) : ∀ b, goodWs b s = true → '\r' ∉ s := by
  induction s with
  | nil => intro b _ h; simp at h
  | cons c cs ih =>
    intro b h hmem
    by_cases hws : isWs c
    · rw [goodWs, if_pos hws] at h
      simp only [Bool.and_eq_true, beq_iff_eq, Bool.not_eq_true'] at h
      obtain ⟨⟨hsp, _⟩, hrest⟩ := h
      rcases List.mem_cons.mp hmem with rfl | hmem'
      · exact absurd hsp (by decide)
      · exact ih true hrest hmem'
    · rw [goodWs, if_neg hws] at h
      rcases List.mem_cons.mp hmem with rfl | hmem'
      · exact hws (show isWs '\r' = true from rfl)
      · exact ih false h hmem'

theorem normalize_newlines_fix (s : List Char) (h : '\r' ∉ s) :
    normalize_newlines s = s := by
  induction s with
  | nil => rfl
  | cons c cs ih =>
    cases cs with
    | nil => rfl
    | cons d ds =>
      have hc : c ≠ '\r' := fun hh => h (by simp [hh])
      rw [normalize_newlines, if_neg (by intro hh; exact hc hh.1)]
      rw [ih (fun hm => h (List.mem_cons_of_mem c hm))]

theorem normalize_newlines_eq_nil {s : List Char} :
    normalize_newlines s = [] ↔ s = [] := by
  cases s with
  | nil => simp [normalize_newlines]
  | cons c cs =>
    cases cs with
    | nil => simp [normalize_newlines]
    | cons d ds =>
      rw [normalize_newlines]
      split_ifs <;> simp

theorem getLast?_cons_ne (a : Char) (l : List Char) (h : l ≠ []) :
    (a :: l).getLast? = l.getLast? := by
  cases l with
  | nil => exact absurd rfl h
  | cons b bs => rw [List.getLast?_cons_cons]

theorem normalize_newlines_getLast (s : List Char) :
    (normalize_newlines s).getLast? = s.getLast? := by
  have H : ∀ n s, List.length s ≤ n →
      (normalize_newlines s).getLast? = s.getLast? := by
    intro n
    induction n with
    | zero =>
      intro s hs
      have : s = [] := List.length_eq_zero.mp (Nat.le_zero.mp hs)
      subst this
      rfl
    | succ n ih =>
      intro s hs
      cases s with
      | nil => rfl
      | cons c cs =>
        cases cs with
        | nil => rfl
        | cons d ds =>
          rw [normalize_newlines]
          split_ifs with hcd
          · rcases ds with _ | ⟨e, es⟩
            · simp [normalize_newlines, hcd.2]
            · have hlen : List.length (e :: es) ≤ n := by
                simp at hs ⊢
                omega
              have hne : normalize_newlines (e :: es) ≠ [] := by
                rw [ne_eq, normalize_newlines_eq_nil]
                simp
              rw [getLast?_cons_ne '\n' (normalize_newlines (e :: es)) hne,
                ih (e :: es) hlen,
                getLast?_cons_ne c (d :: e :: es) (by simp),
                getLast?_cons_ne d (e :: es) (by simp)]
          · have hlen : List.length (d :: ds) ≤ n := by
              simp at hs ⊢
              omega
            have hne : normalize_newlines (d :: ds) ≠ [] := by
              rw [ne_eq, normalize_newlines_eq_nil]
              simp
            rw [getLast?_cons_ne c (normalize_newlines (d :: ds)) hne,
              ih (d :: ds) hlen,
              getLast?_cons_ne c (d :: ds) (by simp)]
  exact H (List.length s) s (Nat.le_refl _)

theorem normalize_newlines_head (s : List Char) (c : Char)
    (h : s.head? = some c) (hn : isWs c = false) :
    (normalize_newlines s).head? = some c := by
  cases s with
  | nil => simp at h
  | cons x xs =>
    simp only [List.head?_cons, Option.some.injEq] at h
    have hx : x ≠ '\r' := by
      intro hh
      rw [← h, hh] at hn
      exact absurd hn (by decide)
    cases xs with
    | nil => simp [normalize_newlines, h]
    | cons d ds =>
      rw [normalize_newlines, if_neg (by intro hh; exact hx hh.1)]
      simp [h]

theorem lowerAZ_facts (c : Char) (h : isLowerAZ c = true) :
    isWs c = false ∧ isSentEnd c = false ∧ isLowerAZ (upperAZ c) = false
    ∧ isWs (upperAZ c) = false ∧ isSentEnd (upperAZ c) = false := by
  have hm : c ∈ lowerAZ := by
    rw [isLowerAZ] at h
    exact List.elem_iff.mp h
  fin_cases hm <;> decide

theorem sentEnd_facts (c : Char) (h : isSentEnd c = true) :
    isLowerAZ c = false ∧ isWs c = false := by
  have hm : (c = '.' ∨ c = '!') ∨ c = '?' := by
    simpa [isSentEnd] using h
  rcases hm with (rfl | rfl) | rfl <;> decide

theorem ws_facts (c : Char) (h : isWs c = true) :
    isLowerAZ c = false ∧ isSentEnd c = false := by
  have hm : ((c = ' ' ∨ c = '\t') ∨ c = '\r') ∨ c = '\n' := by
    simpa [isWs, Char.isWhitespace] using h
  rcases hm with ((rfl | rfl) | rfl) | rfl <;> decide

theorem capGo_idem (s : List Char) : ∀ st, capGo st (capGo st s) = capGo st s := by
  induction s with
  | nil => intro st; rfl
  | cons c cs ih =>
    intro st
    rw [capGo]
    by_cases hcap : (st = CapState.start ∨ st = CapState.afterPunctWs)
        ∧ isLowerAZ c = true
    · rw [if_pos hcap]
      obtain ⟨hf1, hf2, hf3, hf4, hf5⟩ := lowerAZ_facts c hcap.2
      rw [capGo]
      rw [if_neg (by intro hh; rw [hf3] at hh; exact absurd hh.2 (by simp))]
      rw [if_neg (by rw [hf5]; simp)]
      rw [if_neg (by rw [hf4]; simp)]
      rw [ih CapState.normal]
    · rw [if_neg hcap]
      by_cases hse : isSentEnd c = true
      · rw [if_pos hse]
        obtain ⟨hg1, hg2⟩ := sentEnd_facts c hse
        rw [capGo]
        rw [if_neg (by intro hh; rw [hg1] at hh; exact absurd hh.2 (by simp))]
        rw [if_pos hse]
        rw [ih CapState.afterPunct]
      · rw [if_neg hse]
        by_cases hws : isWs c = true
        · rw [if_pos hws]
          obtain ⟨hw1, hw2⟩ := ws_facts c hws
          rw [capGo]
          rw [if_neg (by intro hh; rw [hw1] at hh; exact absurd hh.2 (by simp))]
          rw [if_neg (by rw [hw2]; simp)]
          rw [if_pos hws]
          rw [ih]
        · rw [if_neg hws]
          rw [capGo]
          rw [if_neg hcap, if_neg hse, if_neg hws]
          rw [ih CapState.normal]

theorem goodWs_capGo (s : List Char) :
    ∀ st b, goodWs b s = true → goodWs b (capGo st s) = true := by
  induction s with
  | nil =>
    intro st b h
    exact h
  | cons c cs ih =>
    intro st b h
    rw [capGo]
    by_cases hcap : (st = CapState.start ∨ st = CapState.afterPunctWs)
        ∧ isLowerAZ c = true
    · rw [if_pos hcap]
      obtain ⟨hf1, _, _, hf4, _⟩ := lowerAZ_facts c hcap.2
      rw [goodWs, if_neg (by rw [hf4]; simp)]
      rw [goodWs, if_neg (by rw [hf1]; simp)] at h
      exact ih CapState.normal false h
    · rw [if_neg hcap]
      by_cases hse : isSentEnd c = true
      · rw [if_pos hse]
        obtain ⟨_, hg2⟩ := sentEnd_facts c hse
        rw [goodWs, if_neg (by rw [hg2]; simp)]
        rw [goodWs, if_neg (by rw [hg2]; simp)] at h
        exact ih CapState.afterPunct false h
      · rw [if_neg hse]
        by_cases hws : isWs c = true
        · rw [if_pos hws]
          rw [goodWs, if_pos hws] at h ⊢
          simp only [Bool.and_eq_true] at h ⊢
          exact ⟨h.1, ih _ true h.2⟩
        · rw [if_neg hws]
          rw [goodWs, if_neg hws] at h ⊢
          exact ih CapState.normal false h

theorem capGo_eq_nil (st : CapState) {s : List Char} :
    capGo st s = [] ↔ s = [] := by
  cases s with
  | nil => simp [capGo]
  | cons c cs =>
    rw [capGo]
    split_ifs <;> simp

theorem capGo_head (s : List Char) (st : CapState) (c : Char)
    (h : s.head? = some c) (hn : isWs c = false) :
    ∃ d, (capGo st s).head? = some d ∧ isWs d = false := by
  cases s with
  | nil => simp at h
  | cons x xs =>
    simp only [List.head?_cons, Option.some.injEq] at h
    rw [capGo]
    split_ifs with h1 h2 h3 <;>
      first
        | exact ⟨upperAZ x, by simp, (lowerAZ_facts x h1.2).2.2.2.1⟩
        | exact ⟨x, by simp, by rw [h]; exact hn⟩

theorem capGo_getLast (s : List Char) :
    ∀ (st : CapState) (c : Char), s.getLast? = some c → isWs c = false →
    ∃ d, (capGo st s).getLast? = some d ∧ isWs d = false := by
  induction s with
  | nil =>
    intro st c h
    simp at h
  | cons x xs ih =>
    intro st c h hn
    cases xs with
    | nil =>
      simp only [List.getLast?_singleton, Option.some.injEq] at h
      rw [capGo]
      split_ifs with h1 h2 h3 <;>
        first
          | exact ⟨upperAZ x, by simp [capGo], (lowerAZ_facts x h1.2).2.2.2.1⟩
          | exact ⟨x, by simp [capGo], by rw [h]; exact hn⟩
    | cons y ys =>
      rw [getLast?_cons_ne x (y :: ys) (by simp)] at h
      have hne : ∀ st' : CapState, capGo st' (y :: ys) ≠ [] := by
        intro st' hh
        rw [capGo_eq_nil st'] at hh
        simp at hh
      rw [capGo]
      split_ifs with h1 h2 h3 <;>
        · obtain ⟨d, hd, hdn⟩ := ih _ c h hn
          exact ⟨d, by rw [getLast?_cons_ne _ _ (hne _)]; exact hd, hdn⟩

theorem collapseGo_head (s : List Char) (c : Char)
    (h : s.head? = some c) (hn : isWs c = false) :
    (collapseGo false s).head? = some c := by
  cases s with
  | nil => simp at h
  | cons x xs =>
    simp only [List.head?_cons, Option.some.injEq] at h
    rw [collapseGo, if_neg (by rw [h]; simp [hn])]
    simp [h]

theorem collapseGo_getLast (s : List Char) :
    ∀ (b : Bool) (c : Char), s.getLast? = some c → isWs c = false →
    (collapseGo b s).getLast? = some c := by
  induction s with
  | nil =>
    intro b c h
    simp at h
  | cons x xs ih =>
    intro b c h hn
    cases xs with
    | nil =>
      simp only [List.getLast?_singleton, Option.some.injEq] at h
      have hxw : ¬(isWs x = true) := by
        rw [h]
        simp [hn]
      rw [collapseGo, if_neg hxw]
      simp [collapseGo, h]
    | cons y ys =>
      rw [getLast?_cons_ne x (y :: ys) (by simp)] at h
      have htail : ∀ b', (collapseGo b' (y :: ys)).getLast? = some c :=
        fun b' => ih b' c h hn
      have hne : ∀ b', collapseGo b' (y :: ys) ≠ [] := by
        intro b' hh
        have hx := htail b'
        rw [hh] at hx
        simp at hx
      rw [collapseGo]
      split_ifs with hws hb
      · exact htail true
      · rw [getLast?_cons_ne ' ' _ (hne true)]
        exact htail true
      · rw [getLast?_cons_ne x _ (hne false)]
        exact htail false

theorem dropWhile_head_nonws (s : List Char) :
    ∀ c, (s.dropWhile isWs).head? = some c → isWs c = false := by
  induction s with
  | nil =>
    intro c h
    simp at h
  | cons x xs ih =>
    intro c h
    rw [List.dropWhile_cons] at h
    by_cases hx : isWs x = true
    · rw [if_pos hx] at h
      exact ih c h
    · rw [if_neg hx] at h
      simp only [List.head?_cons, Option.some.injEq] at h
      rw [← h]
      simpa using hx

theorem dropTrailingWs_getLast (s : List Char) :
    ∀ c, (dropTrailingWs s).getLast? = some c → isWs c = false := by
  induction s with
  | nil =>
    intro c h
    simp [dropTrailingWs] at h
  | cons x xs ih =>
    intro c h
    rw [dropTrailingWs] at h
    rcases hr : dropTrailingWs xs with _ | ⟨y, ys⟩
    · rw [hr] at h
      dsimp only at h
      split_ifs at h with hx
      · simp at h
      · simp only [List.getLast?_singleton, Option.some.injEq] at h
        rw [← h]
        simpa using hx
    · rw [hr] at h
      dsimp only at h
      rw [getLast?_cons_ne x (y :: ys) (by simp)] at h
      rw [← hr] at h
      exact ih c h

theorem dropTrailingWs_head (s : List Char) :
    ∀ c, (dropTrailingWs s).head? = some c → s.head? = some c := by
  cases s with
  | nil =>
    intro c h
    simp [dropTrailingWs] at h
  | cons x xs =>
    intro c h
    rw [dropTrailingWs] at h
    rcases hr : dropTrailingWs xs with _ | ⟨y, ys⟩
    · rw [hr] at h
      dsimp only at h
      split_ifs at h with hx
      · simp at h
      · simpa using h
    · rw [hr] at h
      dsimp only at h
      simpa using h

theorem trimStr_head (s : List Char) (c : Char)
    (h : (trimStr s).head? = some c) : isWs c = false := by
  unfold trimStr dropLeadingWs at h
  exact dropWhile_head_nonws s c (dropTrailingWs_head _ c h)

theorem trimStr_getLast (s : List Char) (c : Char)
    (h : (trimStr s).getLast? = some c) : isWs c = false := by
  unfold trimStr at h
  exact dropTrailingWs_getLast _ c h

theorem dropWhile_fix (s : List Char) (c : Char) (h : s.head? = some c)
    (hn : isWs c = false) : s.dropWhile isWs = s := by
  cases s with
  | nil => rfl
  | cons x xs =>
    simp only [List.head?_cons, Option.some.injEq] at h
    rw [List.dropWhile_cons, if_neg (by rw [h]; simp [hn])]

theorem dropTrailingWs_fix (s : List Char) :
    ∀ c, s.getLast? = some c → isWs c = false → dropTrailingWs s = s := by
  induction s with
  | nil =>
    intro c h
    simp at h
  | cons x xs ih =>
    intro c h hn
    cases xs with
    | nil =>
      simp only [List.getLast?_singleton, Option.some.injEq] at h
      simp only [dropTrailingWs]
      rw [if_neg (by rw [h]; simp [hn])]
    | cons y ys =>
      rw [getLast?_cons_ne x (y :: ys) (by simp)] at h
      have hfix := ih c h hn
      rw [dropTrailingWs, hfix]

theorem trimStr_fix (u : List Char)
    (hhead : ∀ c, u.head? = some c → isWs c = false)
    (hlast : ∀ c, u.getLast? = some c → isWs c = false) :
    trimStr u = u := by
  rcases hu : u.head? with _ | c
  · have hnil : u = [] := by
      cases u
      · rfl
      · simp at hu
    subst hnil
    rfl
  · have hc := hhead c hu
    have hne : u ≠ [] := by
      intro hh
      rw [hh] at hu
      simp at hu
    unfold trimStr dropLeadingWs
    rw [dropWhile_fix u c hu hc]
    rcases hl : u.getLast? with _ | c1
    · exact absurd (List.getLast?_eq_none_iff.mp hl) hne
    · exact dropTrailingWs_fix u c1 hl (hlast c1 hl)

theorem trimStr_idem (s : List Char) : trimStr (trimStr s) = trimStr s :=
  trimStr_fix (trimStr s) (fun c h => trimStr_head s c h)
    (fun c h => trimStr_getLast s c h)

theorem chain_head_nonws (x : List Char) (hx : trimStr x = x) :
    ∀ c, (collapseWs (normalize_newlines x)).head? = some c → isWs c = false := by
  intro c h
  rcases hxh : x.head? with _ | c0
  · have hnil : x = [] := by
      cases x
      · rfl
      · simp at hxh
    subst hnil
    simp [normalize_newlines, collapseWs, collapseGo] at h
  · have hc0 : isWs c0 = false := trimStr_head x c0 (by rw [hx]; exact hxh)
    have h1 := normalize_newlines_head x c0 hxh hc0
    have h2 := collapseGo_head (normalize_newlines x) c0 h1 hc0
    rw [collapseWs, h2] at h
    simp only [Option.some.injEq] at h
    rw [← h]
    exact hc0

theorem chain_getLast_nonws (x : List Char) (hx : trimStr x = x) :
    ∀ c, (collapseWs (normalize_newlines x)).getLast? = some c →
      isWs c = false := by
  intro c h
  rcases hxl : x.getLast? with _ | c1
  · have hnil : x = [] := List.getLast?_eq_none_iff.mp hxl
    subst hnil
    simp [normalize_newlines, collapseWs, collapseGo] at h
  · have hc1 : isWs c1 = false := trimStr_getLast x c1 (by rw [hx]; exact hxl)
    have h1 : (normalize_newlines x).getLast? = some c1 := by
      rw [normalize_newlines_getLast]
      exact hxl
    have h2 := collapseGo_getLast (normalize_newlines x) false c1 h1 hc1
    rw [collapseWs, h2] at h
    simp only [Option.some.injEq] at h
    rw [← h]
    exact hc1

theorem trim_fix_chain (x : List Char) (hx : trimStr x = x) :
    trimStr (collapseWs (normalize_newlines x))
      = collapseWs (normalize_newlines x) :=
  trimStr_fix _ (chain_head_nonws x hx) (chain_getLast_nonws x hx)

theorem trim_fix_chain_cap (x : List Char) (hx : trimStr x = x) :
    trimStr (capitalize_sentences (collapseWs (normalize_newlines x)))
      = capitalize_sentences (collapseWs (normalize_newlines x)) := by
  apply trimStr_fix
  · intro c h
    rcases hwh : (collapseWs (normalize_newlines x)).head? with _ | c0
    · have hwnil : collapseWs (normalize_newlines x) = [] := by
        cases hcc : collapseWs (normalize_newlines x)
        · rfl
        · rw [hcc] at hwh
          simp at hwh
      rw [capitalize_sentences, hwnil] at h
      simp [capGo] at h
    · have hc0 := chain_head_nonws x hx c0 hwh
      obtain ⟨d, hd, hdn⟩ := capGo_head _ CapState.start c0 hwh hc0
      rw [capitalize_sentences, hd] at h
      simp only [Option.some.injEq] at h
      rw [← h]
      exact hdn
  · intro c h
    rcases hwl : (collapseWs (normalize_newlines x)).getLast? with _ | c1
    · have hwnil : collapseWs (normalize_newlines x) = [] :=
        List.getLast?_eq_none_iff.mp hwl
      rw [capitalize_sentences, hwnil] at h
      simp [capGo] at h
    · have hc1 := chain_getLast_nonws x hx c1 hwl
      obtain ⟨d, hd, hdn⟩ := capGo_getLast _ CapState.start c1 hwl hc1
      rw [capitalize_sentences, hd] at h
      simp only [Option.some.injEq] at h
      rw [← h]
      exact hdn

/-- Counterexample to C8 as stated: the newline-normalization pass alone is
not idempotent. On `"\r\r\n"` one application yields `"\r\n"` (the
replacement is left-to-right and non-overlapping), and a second application
yields `"\n"`. -/
theorem C8_counterexample :
    normalize_newlines (normalize_newlines (String.toList "\r\r\n"))
      ≠ normalize_newlines (String.toList "\r\r\n") := by
  decide

/-- C8 (amended): for every options value enabling the whitespace-collapse
and newline-normalization passes (trim and capitalization arbitrary), the
composite clean is idempotent, and the whitespace-collapse pass alone is
idempotent on every input; the newline-normalization pass alone is not. -/
theorem C8_clean_idempotent (t : List Char) (tw cs : Bool) :
    apply_text_cleaning (apply_text_cleaning t (some ⟨tw, true, true, cs⟩))
        (some ⟨tw, true, true, cs⟩)
      = apply_text_cleaning t (some ⟨tw, true, true, cs⟩)
    ∧ ∀ s, collapseWs (collapseWs s) = collapseWs s := by
  refine ⟨?_, collapseWs_idem⟩
  have hcomp : apply_text_cleaning t (some ⟨tw, true, true, cs⟩)
      = (if cs = true then
          capitalize_sentences (collapseWs (normalize_newlines
            (if tw = true then trimStr t else t)))
         else collapseWs (normalize_newlines
            (if tw = true then trimStr t else t))) := by
    cases tw <;> cases cs <;> rfl
  rw [hcomp]
  set x := (if tw = true then trimStr t else t) with hxdef
  have hx : tw = true → trimStr x = x := by
    intro h
    rw [hxdef, if_pos h]
    exact trimStr_idem t
  have hgoodw : goodWs false (collapseWs (normalize_newlines x)) = true :=
    (goodWs_collapseGo (normalize_newlines x)).2
  cases cs with
  | false =>
    rw [if_neg Bool.false_ne_true]
    set w := collapseWs (normalize_newlines x) with hwdef
    have hnoCR : '\r' ∉ w := goodWs_no_cr w false hgoodw
    have h2 : normalize_newlines w = w := normalize_newlines_fix w hnoCR
    have h3 : collapseWs w = w := goodWs_fix w false hgoodw
    cases tw with
    | false =>
      rw [show apply_text_cleaning w (some ⟨false, true, true, false⟩)
          = collapseWs (normalize_newlines w) from rfl, h2, h3]
    | true =>
      have h1 : trimStr w = w := by
        rw [hwdef]
        exact trim_fix_chain x (hx rfl)
      rw [show apply_text_cleaning w (some ⟨true, true, true, false⟩)
          = collapseWs (normalize_newlines (trimStr w)) from rfl, h1, h2, h3]
  | true =>
    rw [if_pos rfl]
    set w := collapseWs (normalize_newlines x) with hwdef
    set u := capitalize_sentences w with hudef
    have hgoodu : goodWs false u = true := by
      rw [hudef]
      unfold capitalize_sentences
      exact goodWs_capGo w CapState.start false hgoodw
    have hnoCR : '\r' ∉ u := goodWs_no_cr u false hgoodu
    have h2 : normalize_newlines u = u := normalize_newlines_fix u hnoCR
    have h3 : collapseWs u = u := goodWs_fix u false hgoodu
    have h4 : capitalize_sentences u = u := by
      rw [hudef]
      unfold capitalize_sentences
      exact capGo_idem w CapState.start
    cases tw with
    | false =>
      rw [show apply_text_cleaning u (some ⟨false, true, true, true⟩)
          = capitalize_sentences (collapseWs (normalize_newlines u)) from rfl,
        h2, h3, h4]
    | true =>
      have h1 : trimStr u = u := by
        rw [hudef, hwdef]
        exact trim_fix_chain_cap x (hx rfl)
      rw [show apply_text_cleaning u (some ⟨true, true, true, true⟩)
          = capitalize_sentences (collapseWs (normalize_newlines (trimStr u)))
          from rfl, h1, h2, h3, h4]
